import Mathlib

/-!
Verification of the plentysound keyword-detection pipeline.

This file gives a shallow embedding, in Lean 4, of the detector/audio modules
of the plentysound repository (`plentysound-transcriber/src/detector.rs`,
`plentysound-transcriber/src/audio.rs`, and the chunking helper of
`tests/accuracy.rs`), and proves the spec claims about them.

Modelling conventions:
* 16-bit PCM samples are `Int` values; where the Rust code performs wrapping
  integer casts (`as i16`, `as i32`) the embedding applies an explicit
  wrap-to-width function.
* The `f64` biquad filters are stateful per-sample maps in the Rust code
  (`.map(|&s| filter.run(...))`); they are embedded as a stateful elementwise
  map parametrised by an arbitrary step function, since every claim proved
  here is independent of the concrete filter arithmetic.
* Other `f64` arithmetic (RMS, gain, similarity scores, timestamps) is
  modelled by exact rational arithmetic over `ℚ`; `f64::sqrt` is abstracted
  as a function parameter.
* Rust `Vec<i16>` buffers are `List Int`; `String` text is handled at the
  `List Char` level (UTF-8 byte substring search on valid UTF-8 needles
  coincides with character-level substring search, since UTF-8 is
  self-synchronising).
-/

namespace Plentysound

/-- CHUNK_SECS = 1.5 at SAMPLE_RATE 16000, from `audio.rs`: `CHUNK_SAMPLES = 24000`. -/
def CHUNK_SAMPLES : Nat := 24000

/-- OVERLAP_SECS = 0.5 at SAMPLE_RATE 16000, from `audio.rs`: `OVERLAP_SAMPLES = 8000`. -/
def OVERLAP_SAMPLES : Nat := 8000

/-- Jaro-Winkler similarity threshold, from `audio.rs`: `FUZZY_THRESHOLD = 0.85`. -/
def FUZZY_THRESHOLD : ℚ := 85 / 100

/-- Dedup cooldown in seconds, from `detector.rs`: `DEDUP_COOLDOWN_SECS = 3.0`. -/
def DEDUP_COOLDOWN_SECS : ℚ := 3

/-- Wrapping cast of an integer to a signed `w`-bit machine integer
(`as i16` / `as i32` in Rust). -/
def wrapSigned (w : Nat) (x : Int) : Int :=
  (x + 2 ^ (w - 1)) % 2 ^ w - 2 ^ (w - 1)

/-- Rust `as i16`. -/
def wrapI16 (x : Int) : Int := wrapSigned 16 x

/-- Rust `as i32`. -/
def wrapI32 (x : Int) : Int := wrapSigned 32 x

/-- Rust `slice::chunks_exact(ch)`: the list of complete length-`ch` frames,
discarding the trailing partial frame. -/
def chunksExact (ch : Nat) (l : List Int) : List (List Int) :=
  if h : 1 ≤ ch ∧ ch ≤ l.length then
    l.take ch :: chunksExact ch (l.drop ch)
  else []
termination_by l.length
decreasing_by
  simp only [List.length_drop]
  omega

/-- One frame of the downmix in `stereo_to_mono_and_downsample`
(detector.rs lines 43-46): sum the channels as `i32` (wrapping), divide by the
channel count with `i32` truncating division, and cast back down `as i16`. -/
def frameAvg (ch : Nat) (frame : List Int) : Int :=
  wrapI16 ((frame.foldl (fun a s => wrapI32 (a + s)) 0).tdiv ch)

/-- The downmix stage of `stereo_to_mono_and_downsample` (detector.rs lines
41-47): `samples.chunks_exact(ch).map(|frame| (sum / ch) as i16)`. -/
def downmixMono (ch : Nat) (samples : List Int) : List Int :=
  (chunksExact ch samples).map (frameAvg ch)

/-- Elementwise map with a mutable state threaded through, modelling Rust's
`iter().map(...)` with a stateful closure (the `biquad::DirectForm2Transposed`
filter in `stereo_to_mono_and_downsample`): exactly one output per input. -/
def mapFilter {σ : Type} (step : σ → Int → σ × Int) : σ → List Int → List Int
  | _, [] => []
  | s, x :: xs =>
    let p := step s x
    p.2 :: mapFilter step p.1 xs

/-- Rust `Iterator::step_by(n)`: keep the first element, then every `n`-th. -/
def stepBy {α : Type} (n : Nat) : List α → List α
  | [] => []
  | x :: xs => x :: stepBy n (xs.drop (n - 1))
termination_by l => l.length
decreasing_by
  simp only [List.length_drop, List.length_cons]
  omega

/-- `stereo_to_mono_and_downsample` from detector.rs (lines 39-75), with the
anti-aliasing low-pass biquad abstracted as the state-threaded per-sample map
`step` started in state `s0`.  Downmix to mono, compute the integer rate
ratio, return the mono signal if the ratio is ≤ 1, otherwise filter and
decimate by `step_by ratio`. -/
def stereo_to_mono_and_downsample {σ : Type} (step : σ → Int → σ × Int) (s0 : σ)
    (samples : List Int) (channels src_rate dst_rate : Nat) : List Int :=
  let mono := downmixMono channels samples
  let ratio := src_rate / dst_rate
  if ratio ≤ 1 then mono
  else stepBy ratio (mapFilter step s0 mono)

/-- The chunk-draining loop of `run_detector` (detector.rs lines 245-247):
while the accumulation buffer holds at least `CHUNK_SAMPLES` samples, copy the
first `CHUNK_SAMPLES` out as a chunk and drop the first
`CHUNK_SAMPLES - OVERLAP_SAMPLES` samples.  Returns the emitted chunks and the
final buffer. -/
def drainReadyChunks (buf : List Int) : List (List Int) × List Int :=
  if h : CHUNK_SAMPLES ≤ buf.length then
    let rec_result := drainReadyChunks (buf.drop (CHUNK_SAMPLES - OVERLAP_SAMPLES))
    (buf.take CHUNK_SAMPLES :: rec_result.1, rec_result.2)
  else ([], buf)
termination_by buf.length
decreasing_by
  simp only [List.length_drop]
  simp only [CHUNK_SAMPLES, OVERLAP_SAMPLES] at *
  omega

/-- Rust `Vec::resize(n, 0)`. -/
def vecResize (l : List Int) (n : Nat) : List Int :=
  l.take n ++ List.replicate (n - l.length) 0

/-- The tail-emission step of `run_detector` (detector.rs lines 318-321):
if the post-drain buffer is nonempty, at least `minTail` samples long and
shorter than a full chunk, emit the buffer zero-padded to `CHUNK_SAMPLES`
(the buffer itself is not drained).  The value of the `MIN_TAIL_SAMPLES`
constant is imported by detector.rs but its defining source line is not part
of the provided sources, so it is kept as the parameter `minTail`
(`Modelled from the spec`: a positive minimum threshold below the chunk
size). -/
def maybeEmitTail (minTail : Nat) (buf : List Int) : Option (List Int) :=
  if buf.length ≠ 0 ∧ minTail ≤ buf.length ∧ buf.length < CHUNK_SAMPLES then
    some (vecResize buf CHUNK_SAMPLES)
  else none

/-- One timer tick of `run_detector`'s chunk processing (detector.rs lines
240-347), restricted to its buffer arithmetic: append the freshly converted
samples, drain full chunks, then possibly emit one zero-padded tail chunk
without draining.  Returns the chunks fed to the recognizer and the final
accumulation buffer. -/
def processTick (minTail : Nat) (buf newMono : List Int) :
    List (List Int) × List Int :=
  let drained := drainReadyChunks (buf ++ newMono)
  match maybeEmitTail minTail drained.2 with
  | some c => (drained.1 ++ [c], drained.2)
  | none => drained

/-- Inner loop of `chunk_audio` from tests/accuracy.rs (lines 228-247):
emit full chunks while `offset + CHUNK_SAMPLES ≤ pcm.len()`, advancing by
`CHUNK_SAMPLES - OVERLAP_SAMPLES`, then one zero-padded tail chunk if any
samples remain past the last offset. -/
def chunkAudioLoop (pcm : List Int) (offset : Nat) : List (List Int) :=
  if h : offset + CHUNK_SAMPLES ≤ pcm.length then
    (pcm.drop offset).take CHUNK_SAMPLES ::
      chunkAudioLoop pcm (offset + (CHUNK_SAMPLES - OVERLAP_SAMPLES))
  else if offset < pcm.length then
    [vecResize (pcm.drop offset) CHUNK_SAMPLES]
  else []
termination_by pcm.length - offset
decreasing_by
  simp only [CHUNK_SAMPLES, OVERLAP_SAMPLES] at *
  omega

/-- `chunk_audio` from tests/accuracy.rs. -/
def chunk_audio (pcm : List Int) : List (List Int) :=
  chunkAudioLoop pcm 0

/-- `try_emit_match` from detector.rs (lines 369-395).  Timestamps are
rationals modelling `std::time::Instant`; `Instant::duration_since` saturates
at zero, hence the `max 0`.  Returns whether `on_match` fired together with
the new dedup state. -/
def try_emit_match (kw : String) (now : ℚ) (last : Option (String × ℚ)) :
    Bool × Option (String × ℚ) :=
  let is_dup : Bool :=
    match last with
    | some p => decide (p.1 = kw ∧ max 0 (now - p.2) < DEDUP_COOLDOWN_SECS)
    | none => false
  if is_dup then (false, last) else (true, some (kw, now))

/-- Run a sequence of detection attempts `(keyword, time)` through
`try_emit_match`, collecting the attempts for which `on_match` fired. -/
def runEmits : Option (String × ℚ) → List (String × ℚ) → List (String × ℚ)
  | _, [] => []
  | st, a :: rest =>
    let r := try_emit_match a.1 a.2 st
    (if r.1 then [a] else []) ++ runEmits r.2 rest

/-- The dedup state left after a sequence of detection attempts. -/
def runState : Option (String × ℚ) → List (String × ℚ) → Option (String × ℚ)
  | st, [] => st
  | st, a :: rest => runState (try_emit_match a.1 a.2 st).2 rest

/-- Model of Rust `str::to_lowercase` at character level, using `Char.toLower`
(ASCII case mapping).  Adequate for the claims proved here: both full Unicode
lowercasing and this model agree on ASCII input and neither ever produces an
uppercase ASCII letter. -/
def lowerChars (text : List Char) : List Char :=
  text.map Char.toLower

/-- Rust `str::contains(keyword)`: substring containment (byte containment of
valid UTF-8 coincides with character-level containment). -/
def containsSub (hay needle : List Char) : Bool :=
  decide (needle <:+: hay)

/-- The keyword loop of `check_keywords_exact` (audio.rs lines 81-86): first
keyword contained in the lowercased text, in list order. -/
def firstContainedKw (tl : List Char) : List (List Char) → Option (List Char)
  | [] => none
  | kw :: rest => if containsSub tl kw then some kw else firstContainedKw tl rest

/-- `check_keywords_exact` from audio.rs (lines 76-87): empty text never
matches; otherwise the text (only) is lowercased and the first keyword that is
a substring of it is returned. -/
def check_keywords_exact (text : List Char) (keywords : List (List Char)) :
    Option (List Char) :=
  if text.isEmpty then none
  else firstContainedKw (lowerChars text) keywords

/-- Rust `str::split_whitespace`: maximal runs of non-whitespace characters. -/
def splitWs (l : List Char) : List (List Char) :=
  (l.splitOnP (·.isWhitespace)).filter (fun w => !w.isEmpty)

/-- Modelled from the spec: the Jaro matching phase of the Jaro-Winkler string
similarity used by audio.rs via the external `strsim` crate (not part of the
provided sources).  For each index `i` of `a` in order, match it to the
smallest not-yet-matched index `j` of `b` within the window
`[i - range, i + range]` holding the same character; returns the matched index
pairs in order of `i`. -/
def jaroPairs (a b : List Char) : List (Nat × Nat) :=
  let range := max a.length b.length / 2 - 1
  (List.range a.length).foldl
    (fun acc i =>
      match (List.range b.length).find?
          (fun j => decide (i - range ≤ j ∧ j ≤ i + range ∧
            b.getD j 'a' = a.getD i 'a' ∧ j ∉ acc.map Prod.snd)) with
      | some j => acc ++ [(i, j)]
      | none => acc) []

/-- Insertion of a natural number into a sorted list (ascending). -/
def insertNat (x : Nat) : List Nat → List Nat
  | [] => [x]
  | y :: ys => if x ≤ y then x :: y :: ys else y :: insertNat x ys

/-- Insertion sort, used to read the matched `b`-indices in `b`-order. -/
def sortNat (l : List Nat) : List Nat :=
  l.foldr insertNat []

/-- Modelled from the spec: the integer part of the Jaro similarity — the
number of matches `m` and twice the number of transpositions (the number of
positions at which the matched-character sequence of `a`, in `a`-order,
disagrees with that of `b`, in `b`-order). -/
def jaroCounts (a b : List Char) : Nat × Nat :=
  let ps := jaroPairs a b
  let s1 := ps.map (fun p => a.getD p.1 'a')
  let s2 := (sortNat (ps.map Prod.snd)).map (fun j => b.getD j 'a')
  (ps.length, (s1.zip s2).countP (fun p => decide (p.1 ≠ p.2)))

/-- Modelled from the spec: Jaro similarity over exact rationals,
`(m/|a| + m/|b| + (m - t)/m) / 3` with `t` half the transposition count, and
the conventional empty-string and no-match cases. -/
def jaro (a b : List Char) : ℚ :=
  if a.length = 0 ∧ b.length = 0 then 1
  else
    if (jaroCounts a b).1 = 0 then 0
    else
      let m : ℚ := (jaroCounts a b).1
      let t2 : ℚ := (jaroCounts a b).2
      (m / a.length + m / b.length + (m - t2 / 2) / m) / 3

/-- Length of the common prefix of two character lists. -/
def commonPrefixLen : List Char → List Char → Nat
  | a :: as, b :: bs => if a = b then commonPrefixLen as bs + 1 else 0
  | _, _ => 0

/-- Modelled from the spec: Jaro-Winkler similarity (external `strsim` crate),
boosting the Jaro score by `0.1` per shared prefix character (capped at 4),
clamped to 1. -/
def jaro_winkler (a b : List Char) : ℚ :=
  let j := jaro a b
  min 1 (j + (min (commonPrefixLen a b) 4 : ℚ) * (1 / 10) * (1 - j))

/-- `fuzzy_match` from audio.rs (lines 90-96): keywords shorter than 3
characters never fuzzy-match; otherwise some whitespace token of the (already
lowercased) text must reach the Jaro-Winkler threshold against the whole
keyword. -/
def fuzzy_match (text keyword : List Char) : Bool :=
  if keyword.length < 3 then false
  else (splitWs text).any
    (fun w => decide (FUZZY_THRESHOLD ≤ jaro_winkler w keyword))

/-- The keyword loop of `check_keywords_matched` (audio.rs lines 66-71):
first keyword that is a substring of the lowercased text or fuzzy-matches
it. -/
def firstMatchedKw (tl : List Char) : List (List Char) → Option (List Char)
  | [] => none
  | kw :: rest =>
    if containsSub tl kw || fuzzy_match tl kw then some kw
    else firstMatchedKw tl rest

/-- `check_keywords_matched` from audio.rs (lines 61-72): exact + fuzzy
matching on the lowercased text, empty text never matches. -/
def check_keywords_matched (text : List Char) (keywords : List (List Char)) :
    Option (List Char) :=
  if text.isEmpty then none
  else firstMatchedKw (lowerChars text) keywords

/-- The keyword-preparation loop of `run_detector` (detector.rs lines 99-105):
lowercase every configured keyword and drop duplicates, preserving first
occurrence order. -/
def uniqueKeywords (keywords : List (List Char)) : List (List Char) :=
  keywords.foldl
    (fun acc kw =>
      if lowerChars kw ∈ acc then acc else acc ++ [lowerChars kw]) []

/-- A keyword containing an uppercase ASCII letter (the hypothesis of the
implicit claim C9). -/
def hasUpperAscii (kw : List Char) : Bool :=
  kw.any fun c => decide ('A' ≤ c ∧ c ≤ 'Z')

/-- Sum of squares of the samples, from `normalize` (audio.rs line 45),
modelling the exact `f64` accumulation by rationals. -/
def sumSq (l : List Int) : ℚ :=
  (l.map fun s => (s : ℚ) * s).sum

/-- The mean square of the samples (the argument of `sqrt` in audio.rs line
46); division by zero for the empty slice yields `0` in `ℚ` (Rust produces
`NaN`; both branches are no-ops on an empty slice, see `C8`). -/
def meanSq (l : List Int) : ℚ :=
  sumSq l / l.length

/-- Rust `f64::clamp(i16::MIN as f64, i16::MAX as f64)`. -/
def ratClamp (q : ℚ) : ℚ :=
  max (-32768) (min q 32767)

/-- Rust `as i16` applied to an in-range `f64`: truncation toward zero. -/
def ratTrunc (q : ℚ) : Int :=
  q.num.tdiv q.den

/-- `normalize` from audio.rs (lines 43-55), with `f64::sqrt` abstracted as
the parameter `sqrtFn` (every claim proved below holds for an arbitrary
square-root implementation).  If the computed RMS is below 100 the slice is
left untouched, otherwise every sample is scaled by
`gain = min(3000 / rms, 10)` and clamped to the 16-bit range. -/
def normalize (sqrtFn : ℚ → ℚ) (l : List Int) : List Int :=
  let rms := sqrtFn (meanSq l)
  if rms < 100 then l
  else
    let gain := min (3000 / rms) 10
    l.map fun s : Int => ratTrunc (ratClamp ((s : ℚ) * gain))

/-! ## Helper lemmas -/

theorem chunksExact_length_aux (ch : Nat) (hch : 1 ≤ ch) :
    ∀ n (l : List Int), l.length ≤ n →
      (chunksExact ch l).length = l.length / ch := by
  intro n
  induction n with
  | zero =>
    intro l hl
    rw [chunksExact]
    rw [dif_neg (by omega), Nat.div_eq]
    rw [if_neg (by omega)]
    rfl
  | succ n ih =>
    intro l hl
    rw [chunksExact]
    by_cases h : 1 ≤ ch ∧ ch ≤ l.length
    · rw [dif_pos h, List.length_cons,
        ih (l.drop ch) (by simp only [List.length_drop]; omega)]
      simp only [List.length_drop]
      rw [Nat.div_eq l.length ch, if_pos ⟨by omega, h.2⟩]
    · rw [dif_neg h, Nat.div_eq, if_neg (by omega)]
      rfl

theorem chunksExact_length (ch : Nat) (hch : 1 ≤ ch) (l : List Int) :
    (chunksExact ch l).length = l.length / ch :=
  chunksExact_length_aux ch hch l.length l le_rfl

theorem chunksExact_getD_aux (ch : Nat) (hch : 1 ≤ ch) :
    ∀ n (l : List Int) (i : Nat), l.length ≤ n →
      i < (chunksExact ch l).length →
      (chunksExact ch l).getD i [] = (l.drop (i * ch)).take ch := by
  intro n
  induction n with
  | zero =>
    intro l i hl hi
    rw [chunksExact, dif_neg (by omega)] at hi
    simp at hi
  | succ n ih =>
    intro l i hl hi
    rw [chunksExact] at hi ⊢
    by_cases h : 1 ≤ ch ∧ ch ≤ l.length
    · rw [dif_pos h] at hi ⊢
      match i with
      | 0 => simp
      | i + 1 =>
        simp only [List.getD_cons_succ]
        rw [ih (l.drop ch) i (by simp only [List.length_drop]; omega)
          (by simpa using hi)]
        rw [List.drop_drop]
        congr 1
        ring_nf
    · rw [dif_neg h] at hi
      simp at hi


theorem chunksExact_getD (ch : Nat) (hch : 1 ≤ ch) (l : List Int) (i : Nat)
    (hi : i < (chunksExact ch l).length) :
    (chunksExact ch l).getD i [] = (l.drop (i * ch)).take ch :=
  chunksExact_getD_aux ch hch l.length l i le_rfl hi

theorem mapFilter_length {σ : Type} (step : σ → Int → σ × Int) :
    ∀ (s : σ) (l : List Int), (mapFilter step s l).length = l.length := by
  intro s l
  induction l generalizing s with
  | nil => rfl
  | cons x xs ih => simp [mapFilter, ih]

theorem stepBy_length_aux {α : Type} (m : Nat) (hm : 1 ≤ m) :
    ∀ n (l : List α), l.length ≤ n →
      (stepBy m l).length = (l.length + m - 1) / m := by
  intro n
  induction n with
  | zero =>
    intro l hl
    have : l = [] := List.length_eq_zero.mp (by omega)
    subst this
    rw [stepBy]
    simp only [List.length_nil]
    rw [Nat.div_eq, if_neg (by omega)]
  | succ n ih =>
    intro l hl
    match l with
    | [] =>
      rw [stepBy]
      simp only [List.length_nil]
      rw [Nat.div_eq, if_neg (by omega)]
    | x :: xs =>
      rw [stepBy, List.length_cons,
        ih (xs.drop (m - 1)) (by simp only [List.length_drop]; simp at hl; omega)]
      simp only [List.length_drop, List.length_cons]
      by_cases hc : m - 1 ≤ xs.length
      · have h1 : xs.length - (m - 1) + m - 1 = xs.length := by omega
        have h2 : xs.length + 1 + m - 1 = xs.length + m := by omega
        rw [h1, h2, Nat.add_div_right _ (by omega)]
      · have h1 : xs.length - (m - 1) = 0 := by omega
        have h2 : xs.length + 1 + m - 1 = xs.length + m := by omega
        rw [h1, h2, Nat.add_div_right _ (by omega), Nat.zero_add]
        have h3 : (m - 1) / m = 0 := Nat.div_eq_of_lt (by omega)
        have h4 : xs.length / m = 0 := Nat.div_eq_of_lt (by omega)
        rw [h3, h4]

theorem stepBy_length {α : Type} (m : Nat) (hm : 1 ≤ m) (l : List α) :
    (stepBy m l).length = (l.length + m - 1) / m :=
  stepBy_length_aux m hm l.length l le_rfl

theorem downmixMono_length (ch : Nat) (hch : 1 ≤ ch) (samples : List Int) :
    (downmixMono ch samples).length = samples.length / ch := by
  rw [downmixMono, List.length_map, chunksExact_length ch hch]

/-! ## C1: output length of the rate/channel converter -/

/-- C1 (amended): for every interleaved input, channel count ch ≥ 1 and rates
with integer ratio N = src_rate / dst_rate (dst_rate > 0), if N ≤ 1 then
`stereo_to_mono_and_downsample` returns the mono-downmixed signal itself
(hence unchanged in length), and if N > 1 it returns a signal of length
`ceil(input_frames / N)` — not `floor` — where `input_frames` is the number of
complete frames in the input; this holds for every anti-aliasing filter step
function. -/
theorem C1_resample_length {σ : Type} (step : σ → Int → σ × Int) (s0 : σ)
    (samples : List Int) (channels src_rate dst_rate : Nat)
    (hch : 1 ≤ channels) :
    (src_rate / dst_rate ≤ 1 →
      stereo_to_mono_and_downsample step s0 samples channels src_rate dst_rate
        = downmixMono channels samples) ∧
    (1 < src_rate / dst_rate →
      (stereo_to_mono_and_downsample step s0 samples channels
          src_rate dst_rate).length
        = (samples.length / channels + (src_rate / dst_rate) - 1)
            / (src_rate / dst_rate)) := by
  constructor
  · intro h
    rw [stereo_to_mono_and_downsample, if_pos h]
  · intro h
    rw [stereo_to_mono_and_downsample, if_neg (by omega)]
    rw [stepBy_length _ (by omega), mapFilter_length, downmixMono_length _ hch]

/-- Witness for C1: 10 interleaved samples, 2 channels, 48 kHz → 16 kHz
(ratio 3): 5 mono frames decimate to ceil(5/3) = 2 samples. -/
theorem C1_resample_length_witness :
    (stereo_to_mono_and_downsample (fun (s : Unit) x => (s, x)) ()
        (List.replicate 10 0) 2 48000 16000).length
      = ((List.replicate 10 (0 : Int)).length / 2 + 48000 / 16000 - 1)
          / (48000 / 16000) :=
  (C1_resample_length (fun (s : Unit) x => (s, x)) () (List.replicate 10 0)
    2 48000 16000 (by omega)).2 (by norm_num)

/-- Counterexample to C1 as stated: 10 interleaved samples at 2 channels give
5 complete mono frames; with ratio N = 2 the output has ceil(5/2) = 3 samples,
while the claimed `floor(input_frames / N)` is 2.  (The length of the output
does not depend on the filter's arithmetic, see `C1_resample_length`.) -/
theorem C1_counterexample :
    (stereo_to_mono_and_downsample (fun (s : Unit) x => (s, x)) ()
        (List.replicate 10 0) 2 32000 16000).length = 3 ∧
    ((List.replicate 10 (0 : Int)).length / 2) / (32000 / 16000) = 2 := by
  constructor
  · simp only [stereo_to_mono_and_downsample]
    rw [if_neg (by norm_num)]
    rw [stepBy_length _ (by norm_num), mapFilter_length,
      downmixMono_length _ (by norm_num)]
    simp
  · simp

theorem getD_map_chunk (f : List Int → Int) (l : List (List Int)) (i : Nat)
    (h : i < l.length) : (l.map f).getD i 0 = f (l.getD i []) := by
  rw [List.getD_eq_getElem?_getD, List.getElem?_map,
    List.getElem?_eq_getElem h, List.getD_eq_getElem?_getD,
    List.getElem?_eq_getElem h]
  rfl

/-! ## C10: downmix drops the trailing partial frame -/

/-- C10: for every interleaved input whose sample count need not be a multiple
of the channel count (ch ≥ 1), the mono signal before any decimation has
exactly `floor(input_len / ch)` samples (the trailing partial frame is
discarded), and sample `i` is the truncated integer average — 32-bit wrapping
sum, truncating division by the channel count, cast `as i16` — of the `i`-th
complete frame. -/
theorem C10_downmix_partial_frame (ch : Nat) (samples : List Int)
    (hch : 1 ≤ ch) :
    (downmixMono ch samples).length = samples.length / ch ∧
    ∀ i, i < (downmixMono ch samples).length →
      (downmixMono ch samples).getD i 0
        = frameAvg ch ((samples.drop (i * ch)).take ch) := by
  refine ⟨downmixMono_length ch hch samples, ?_⟩
  intro i hi
  rw [downmixMono, List.length_map] at hi
  rw [downmixMono, getD_map_chunk _ _ _ hi, chunksExact_getD ch hch samples i hi]

/-- Witness for C10: `[1, 2, 3]` at 2 channels downmixes to a single frame
average; the trailing sample `3` is dropped. -/
theorem C10_downmix_partial_frame_witness :
    (downmixMono 2 [1, 2, 3]).length = [1, 2, 3].length / 2 ∧
    (downmixMono 2 [1, 2, 3]).getD 0 0
      = frameAvg 2 (([1, 2, 3].drop (0 * 2)).take 2) := by
  have h := C10_downmix_partial_frame 2 [1, 2, 3] (by omega)
  exact ⟨h.1, h.2 0 (by rw [h.1]; decide)⟩

/-! ## C3 / C4: chunker and tail emission -/

theorem drainReadyChunks_small (buf : List Int)
    (h : buf.length < CHUNK_SAMPLES) : drainReadyChunks buf = ([], buf) := by
  rw [drainReadyChunks, dif_neg (by omega)]

theorem drainReadyChunks_step (buf : List Int)
    (h : CHUNK_SAMPLES ≤ buf.length) :
    drainReadyChunks buf
      = (buf.take CHUNK_SAMPLES ::
          (drainReadyChunks (buf.drop (CHUNK_SAMPLES - OVERLAP_SAMPLES))).1,
         (drainReadyChunks (buf.drop (CHUNK_SAMPLES - OVERLAP_SAMPLES))).2) := by
  rw [drainReadyChunks, dif_pos h]

/-- C3: feeding exactly `CHUNK_SAMPLES + OVERLAP_SAMPLES` samples into an
empty chunker in one call yields exactly 2 chunks — one full chunk from the
drain loop plus the zero-padded tail chunk emitted in the same call (in
`chunk_audio` of the accuracy harness and equally in one `run_detector` tick,
for any tail threshold `minTail ≤ CHUNK_SAMPLES - OVERLAP_SAMPLES`) — and the
last `OVERLAP_SAMPLES` samples of chunk 1 equal the first `OVERLAP_SAMPLES`
samples of chunk 2. -/
theorem C3_two_chunks_overlap (pcm : List Int) (minTail : Nat)
    (hlen : pcm.length = CHUNK_SAMPLES + OVERLAP_SAMPLES)
    (hmt1 : 1 ≤ minTail)
    (hmt2 : minTail ≤ CHUNK_SAMPLES - OVERLAP_SAMPLES) :
    chunk_audio pcm
      = [pcm.take CHUNK_SAMPLES,
         pcm.drop (CHUNK_SAMPLES - OVERLAP_SAMPLES)
           ++ List.replicate OVERLAP_SAMPLES 0] ∧
    processTick minTail [] pcm
      = ([pcm.take CHUNK_SAMPLES,
          pcm.drop (CHUNK_SAMPLES - OVERLAP_SAMPLES)
            ++ List.replicate OVERLAP_SAMPLES 0],
         pcm.drop (CHUNK_SAMPLES - OVERLAP_SAMPLES)) ∧
    (pcm.take CHUNK_SAMPLES).drop (CHUNK_SAMPLES - OVERLAP_SAMPLES)
      = (pcm.drop (CHUNK_SAMPLES - OVERLAP_SAMPLES)
          ++ List.replicate OVERLAP_SAMPLES 0).take OVERLAP_SAMPLES := by
  have hdl : (pcm.drop (CHUNK_SAMPLES - OVERLAP_SAMPLES)).length
      = OVERLAP_SAMPLES + OVERLAP_SAMPLES := by
    rw [List.length_drop, hlen]
    simp only [CHUNK_SAMPLES, OVERLAP_SAMPLES]
  have htail : vecResize (pcm.drop (CHUNK_SAMPLES - OVERLAP_SAMPLES))
      CHUNK_SAMPLES
      = pcm.drop (CHUNK_SAMPLES - OVERLAP_SAMPLES)
        ++ List.replicate OVERLAP_SAMPLES 0 := by
    rw [vecResize, List.take_of_length_le (by
      rw [hdl]; simp only [CHUNK_SAMPLES, OVERLAP_SAMPLES]; omega)]
    congr 2
    rw [hdl]
    simp only [CHUNK_SAMPLES, OVERLAP_SAMPLES]
  refine ⟨?_, ?_, ?_⟩
  · rw [chunk_audio, chunkAudioLoop,
      dif_pos (by simp only [CHUNK_SAMPLES, OVERLAP_SAMPLES] at hlen ⊢; omega)]
    rw [chunkAudioLoop,
      dif_neg (by simp only [CHUNK_SAMPLES, OVERLAP_SAMPLES] at hlen ⊢; omega)]
    rw [if_pos (by simp only [CHUNK_SAMPLES, OVERLAP_SAMPLES] at hlen ⊢; omega)]
    rw [List.drop_zero, Nat.zero_add, htail]
  · have hstep := drainReadyChunks_step pcm (by
      simp only [CHUNK_SAMPLES, OVERLAP_SAMPLES] at hlen ⊢; omega)
    have hsmall := drainReadyChunks_small
      (pcm.drop (CHUNK_SAMPLES - OVERLAP_SAMPLES)) (by
        rw [hdl]; simp only [CHUNK_SAMPLES, OVERLAP_SAMPLES]; omega)
    have hcond : (pcm.drop (CHUNK_SAMPLES - OVERLAP_SAMPLES)).length ≠ 0 ∧
        minTail ≤ (pcm.drop (CHUNK_SAMPLES - OVERLAP_SAMPLES)).length ∧
        (pcm.drop (CHUNK_SAMPLES - OVERLAP_SAMPLES)).length < CHUNK_SAMPLES := by
      rw [hdl]
      simp only [CHUNK_SAMPLES, OVERLAP_SAMPLES] at hmt2 ⊢
      omega
    simp only [processTick, List.nil_append, hstep, hsmall, maybeEmitTail,
      if_pos hcond, htail]
    rfl
  · rw [List.drop_take, List.take_append_eq_append_take, hdl]
    simp only [CHUNK_SAMPLES, OVERLAP_SAMPLES]
    norm_num

/-- Witness for C3: 32000 zero samples yield exactly two chunks through both
embeddings of the chunker. -/
theorem C3_two_chunks_overlap_witness :
    (chunk_audio (List.replicate 32000 0)).length = 2 ∧
    (processTick 1 [] (List.replicate 32000 0)).1.length = 2 := by
  have h := C3_two_chunks_overlap (List.replicate 32000 0) 1
    (by norm_num [List.length_replicate, CHUNK_SAMPLES, OVERLAP_SAMPLES])
    (by omega)
    (by norm_num [CHUNK_SAMPLES, OVERLAP_SAMPLES])
  refine ⟨?_, ?_⟩
  · rw [h.1]
    rfl
  · rw [h.2.1]
    rfl

/-- C4: for every buffer state whose post-drain remainder has length in
`[minTail, CHUNK_SAMPLES)`, tail processing emits exactly one extra chunk —
the remainder zero-padded to `CHUNK_SAMPLES` — and leaves the accumulation
buffer exactly as the drain left it (no samples removed); if the remainder is
shorter than `minTail`, no tail chunk is emitted. -/
theorem C4_tail_no_drain (minTail : Nat) (buf newMono : List Int)
    (hmt : 1 ≤ minTail) :
    (minTail ≤ (drainReadyChunks (buf ++ newMono)).2.length ∧
       (drainReadyChunks (buf ++ newMono)).2.length < CHUNK_SAMPLES →
      processTick minTail buf newMono
        = ((drainReadyChunks (buf ++ newMono)).1
            ++ [(drainReadyChunks (buf ++ newMono)).2
                 ++ List.replicate
                     (CHUNK_SAMPLES
                       - (drainReadyChunks (buf ++ newMono)).2.length) 0],
           (drainReadyChunks (buf ++ newMono)).2)) ∧
    ((drainReadyChunks (buf ++ newMono)).2.length < minTail →
      processTick minTail buf newMono = drainReadyChunks (buf ++ newMono)) := by
  constructor
  · rintro ⟨h1, h2⟩
    have hcond : (drainReadyChunks (buf ++ newMono)).2.length ≠ 0 ∧
        minTail ≤ (drainReadyChunks (buf ++ newMono)).2.length ∧
        (drainReadyChunks (buf ++ newMono)).2.length < CHUNK_SAMPLES :=
      ⟨by omega, h1, h2⟩
    simp only [processTick, maybeEmitTail, if_pos hcond]
    rw [vecResize, List.take_of_length_le (le_of_lt h2)]
  · intro h
    have hcond : ¬((drainReadyChunks (buf ++ newMono)).2.length ≠ 0 ∧
        minTail ≤ (drainReadyChunks (buf ++ newMono)).2.length ∧
        (drainReadyChunks (buf ++ newMono)).2.length < CHUNK_SAMPLES) :=
      fun hcon => absurd hcon.2.1 (by omega)
    simp only [processTick, maybeEmitTail, if_neg hcond]

/-- Witness for C4: a single sample `[5]` with threshold 1 is emitted as one
zero-padded tail chunk while the buffer keeps holding `[5]`. -/
theorem C4_tail_no_drain_witness :
    processTick 1 [] [5]
      = ([[(5 : Int)] ++ List.replicate (CHUNK_SAMPLES - 1) 0], [(5 : Int)]) := by
  have hd : drainReadyChunks (([] : List Int) ++ [5]) = ([], [(5 : Int)]) :=
    drainReadyChunks_small _ (by simp [CHUNK_SAMPLES])
  have h := (C4_tail_no_drain 1 [] [5] le_rfl).1
  rw [hd] at h
  simpa using h ⟨by simp, by simp [CHUNK_SAMPLES]⟩

/-! ## C2 / C5: deduplication -/

theorem try_emit_match_fresh (kw : String) (now : ℚ) :
    try_emit_match kw now none = (true, some (kw, now)) := rfl

theorem try_emit_match_dup (kw : String) (now t : ℚ)
    (h : now - t < DEDUP_COOLDOWN_SECS) :
    try_emit_match kw now (some (kw, t)) = (false, some (kw, t)) := by
  simp only [try_emit_match]
  rw [if_pos]
  apply decide_eq_true
  refine ⟨by trivial, ?_⟩
  rw [max_lt_iff]
  exact ⟨by norm_num [DEDUP_COOLDOWN_SECS], h⟩

theorem try_emit_match_after (kw : String) (now t : ℚ)
    (h : DEDUP_COOLDOWN_SECS ≤ now - t) :
    try_emit_match kw now (some (kw, t)) = (true, some (kw, now)) := by
  simp only [try_emit_match]
  rw [if_neg]
  simp only [decide_eq_true_eq, not_and]
  intro _ hc
  exact absurd hc (not_lt.mpr (le_max_of_le_right h))

theorem try_emit_match_diff (kw lkw : String) (now t : ℚ) (h : lkw ≠ kw) :
    try_emit_match kw now (some (lkw, t)) = (true, some (kw, now)) := by
  simp only [try_emit_match]
  rw [if_neg]
  simp only [decide_eq_true_eq, not_and]
  intro hc
  exact absurd hc h

/-- C5: starting from a fresh dedup slot, two `try_emit` calls for the same
keyword within the cooldown produce exactly one external event — the second
call is suppressed and leaves the dedup slot unchanged — and a further call at
least `DEDUP_COOLDOWN_SECS` after the last emission produces a second event
and sets the slot to `(k, now)`. -/
theorem C5_dedup_pair (k : String) (t1 t2 t3 : ℚ)
    (hdup : t2 - t1 < DEDUP_COOLDOWN_SECS)
    (hcool : DEDUP_COOLDOWN_SECS ≤ t3 - t1) :
    runEmits none [(k, t1), (k, t2)] = [(k, t1)] ∧
    runState none [(k, t1), (k, t2)] = some (k, t1) ∧
    try_emit_match k t3 (some (k, t1)) = (true, some (k, t3)) := by
  have h1 := try_emit_match_fresh k t1
  have h2 := try_emit_match_dup k t2 t1 hdup
  refine ⟨?_, ?_, try_emit_match_after k t3 t1 hcool⟩
  · simp [runEmits, h1, h2]
  · simp [runState, h1, h2]

/-- Witness for C5 at keyword "lucas", times 0, 1 and 5. -/
theorem C5_dedup_pair_witness :
    runEmits none [("lucas", 0), ("lucas", 1)] = [("lucas", 0)] ∧
    runState none [("lucas", 0), ("lucas", 1)] = some ("lucas", 0) ∧
    try_emit_match "lucas" 5 (some ("lucas", 0))
      = (true, some ("lucas", 5)) :=
  C5_dedup_pair "lucas" 0 1 5 (by norm_num [DEDUP_COOLDOWN_SECS])
    (by norm_num [DEDUP_COOLDOWN_SECS])

/-- Counterexample to C2 as stated: the dedup slot holds only the most recent
keyword, so the attempt sequence a@0, b@1, a@2 fires `on_match` all three
times — "a" fires twice only 2 seconds apart, inside the 3-second cooldown,
because the intervening "b" overwrote the slot. -/
theorem C2_counterexample :
    runEmits none [("a", 0), ("b", 1), ("a", 2)]
      = [("a", 0), ("b", 1), ("a", 2)] ∧
    (2 : ℚ) - 0 < DEDUP_COOLDOWN_SECS := by
  constructor
  · have h1 := try_emit_match_fresh "a" 0
    have h2 := try_emit_match_diff "b" "a" 1 0 (by decide)
    have h3 := try_emit_match_diff "a" "b" 2 1 (by decide)
    simp [runEmits, h1, h2, h3]
  · norm_num [DEDUP_COOLDOWN_SECS]

/-- C2 (amended): `on_match` fires at most once per cooldown window per
keyword as long as no other keyword is emitted in between: with the dedup slot
holding `(k, t)`, any run of further attempts for `k` at times within
`DEDUP_COOLDOWN_SECS` of `t` fires no event and leaves the slot unchanged.
(An intervening emission of a different keyword overwrites the single slot
and re-arms `k` immediately, see `C2_counterexample`.) -/
theorem C2_amended_single_slot (k : String) (t : ℚ) (ts : List ℚ)
    (h : ∀ u ∈ ts, u - t < DEDUP_COOLDOWN_SECS) :
    runEmits (some (k, t)) (ts.map fun u => (k, u)) = [] ∧
    runState (some (k, t)) (ts.map fun u => (k, u)) = some (k, t) := by
  induction ts with
  | nil => exact ⟨rfl, rfl⟩
  | cons u us ih =>
    have hd := try_emit_match_dup k u t (h u (List.mem_cons_self u us))
    have ih2 := ih fun v hv => h v (List.mem_cons_of_mem _ hv)
    constructor
    · simp only [List.map_cons, runEmits, hd]
      simpa using ih2.1
    · simp only [List.map_cons, runState, hd]
      exact ih2.2

/-- Witness for the amended C2: slot ("lucas", 0), further attempts at 1 and
2 seconds are all suppressed. -/
theorem C2_amended_single_slot_witness :
    runEmits (some ("lucas", 0)) ([1, 2].map fun u => ("lucas", u)) = [] ∧
    runState (some ("lucas", 0)) ([1, 2].map fun u => ("lucas", u))
      = some ("lucas", 0) :=
  C2_amended_single_slot "lucas" 0 [1, 2] (by
    intro u hu
    simp only [List.mem_cons, List.not_mem_nil, or_false] at hu
    rcases hu with rfl | rfl <;> norm_num [DEDUP_COOLDOWN_SECS])

/-! ## C6 / C7 / C9: keyword matching -/

theorem char_toNat_ofNat (n : Nat) (h : n.isValidChar) :
    (Char.ofNat n).toNat = n := by
  rw [Char.ofNat, dif_pos h]
  simp [Char.ofNatAux, Char.toNat, UInt32.toNat, BitVec.toNat_ofNatLt]

theorem char_le_iff_toNat {a b : Char} : a ≤ b ↔ a.toNat ≤ b.toNat := by
  rw [Char.le_def, UInt32.le_def, BitVec.le_def]
  exact Iff.rfl

theorem toLower_not_upperAscii (c : Char) :
    ¬('A' ≤ c.toLower ∧ c.toLower ≤ 'Z') := by
  intro hc
  have h1 : 65 ≤ c.toLower.toNat := char_le_iff_toNat.mp hc.1
  have h2 : c.toLower.toNat ≤ 90 := char_le_iff_toNat.mp hc.2
  simp only [Char.toLower] at h1 h2
  by_cases hif : c.toNat ≥ 65 ∧ c.toNat ≤ 90
  · rw [if_pos hif] at h1 h2
    rw [char_toNat_ofNat _ (Or.inl (by omega))] at h2
    omega
  · rw [if_neg hif] at h1 h2
    exact hif ⟨by omega, by omega⟩

theorem hasUpperAscii_lowerChars (kw : List Char) :
    hasUpperAscii (lowerChars kw) = false := by
  rw [hasUpperAscii, List.any_eq_false]
  intro c hc
  obtain ⟨c2, _, rfl⟩ := List.mem_map.mp hc
  simpa using toLower_not_upperAscii c2

theorem firstContainedKw_eq_find (tl : List Char) (kws : List (List Char)) :
    firstContainedKw tl kws = kws.find? fun kw => containsSub tl kw := by
  induction kws with
  | nil => rfl
  | cons kw rest ih =>
    rw [firstContainedKw, List.find?_cons]
    cases h : containsSub tl kw with
    | true => simp [h]
    | false => simp [h, ih]

theorem firstContainedKw_some_contains (tl : List Char)
    (kws : List (List Char)) (kw : List Char)
    (h : firstContainedKw tl kws = some kw) : containsSub tl kw = true := by
  induction kws with
  | nil => exact absurd h (by rw [firstContainedKw]; exact Option.noConfusion)
  | cons k rest ih =>
    rw [firstContainedKw] at h
    cases hc : containsSub tl k with
    | true =>
      rw [if_pos hc] at h
      injection h with h2
      rw [← h2]
      exact hc
    | false =>
      rw [if_neg (by simp [hc])] at h
      exact ih h

/-- C7: the exact matcher lowercases the text and returns the first keyword in
list-enumeration order contained in it as a substring (list order is the
tie-break); empty input text always returns no match; in particular
`check_keywords_exact "olá lucas" ["lucas"] = some "lucas"`. -/
theorem C7_exact_match (text : List Char) (kws : List (List Char))
    (hne : text.isEmpty = false) :
    check_keywords_exact text kws
        = kws.find? (fun kw => containsSub (lowerChars text) kw) ∧
    check_keywords_exact [] kws = none ∧
    check_keywords_exact "olá lucas".data ["lucas".data]
      = some "lucas".data := by
  refine ⟨?_, rfl, ?_⟩
  · rw [check_keywords_exact, if_neg (by simp [hne])]
    exact firstContainedKw_eq_find _ kws
  · decide

/-- Witness for C7 on the text "olá lucas". -/
theorem C7_exact_match_witness :
    check_keywords_exact "olá lucas".data ["lucas".data]
      = ["lucas".data].find?
          (fun kw => containsSub (lowerChars "olá lucas".data) kw) :=
  (C7_exact_match "olá lucas".data ["lucas".data] (by decide)).1

theorem uniqueKeywords_fold_aux (kws : List (List Char)) :
    ∀ acc : List (List Char), (∀ k ∈ acc, hasUpperAscii k = false) →
      ∀ k ∈ kws.foldl
        (fun acc kw =>
          if lowerChars kw ∈ acc then acc else acc ++ [lowerChars kw]) acc,
        hasUpperAscii k = false := by
  induction kws with
  | nil =>
    intro acc hacc k hk
    exact hacc k hk
  | cons kw rest ih =>
    intro acc hacc k hk
    rw [List.foldl_cons] at hk
    refine ih _ ?_ k hk
    intro k2 hk2
    by_cases hmem : lowerChars kw ∈ acc
    · rw [if_pos hmem] at hk2
      exact hacc k2 hk2
    · rw [if_neg hmem] at hk2
      rcases List.mem_append.mp hk2 with hcase | hcase
      · exact hacc k2 hcase
      · have hkw : k2 = lowerChars kw := by simpa using hcase
        rw [hkw]
        exact hasUpperAscii_lowerChars kw

/-- C9 (implicit): a keyword containing an uppercase ASCII letter is never
returned by the exact matcher for any input text — only the text is lowercased
before the `contains` check — and every keyword in the list `run_detector`
builds via `uniqueKeywords` is pre-lowercased, so it contains no uppercase
ASCII letter. -/
theorem C9_uppercase_keyword_unmatchable (text kw : List Char)
    (kws : List (List Char)) (hup : hasUpperAscii kw = true) :
    check_keywords_exact text kws ≠ some kw ∧
    ∀ k ∈ uniqueKeywords kws, hasUpperAscii k = false := by
  constructor
  · intro hsome
    rw [check_keywords_exact] at hsome
    by_cases he : text.isEmpty
    · rw [if_pos he] at hsome
      exact Option.noConfusion hsome
    · rw [if_neg he] at hsome
      have hcont := firstContainedKw_some_contains (lowerChars text) kws kw hsome
      have hinf : kw <:+: lowerChars text := of_decide_eq_true hcont
      rw [hasUpperAscii] at hup
      obtain ⟨c, hcmem, hcup⟩ := List.any_eq_true.mp hup
      have hmem2 : c ∈ lowerChars text := hinf.subset hcmem
      obtain ⟨c2, _, hc2⟩ := List.mem_map.mp hmem2
      refine toLower_not_upperAscii c2 ?_
      rw [hc2]
      exact of_decide_eq_true hcup
  · exact uniqueKeywords_fold_aux kws [] (by intro k hk; exact absurd hk (List.not_mem_nil k))

/-- Witness for C9: the keyword "Lucas" (capital L) is not matched by the text
"lucas", which contains it up to case. -/
theorem C9_uppercase_keyword_unmatchable_witness :
    check_keywords_exact "lucas".data ["Lucas".data] ≠ some "Lucas".data :=
  (C9_uppercase_keyword_unmatchable "lucas".data "Lucas".data ["Lucas".data]
    (by decide)).1

theorem jaroCounts_lukas_lucas :
    jaroCounts "lukas".data "lucas".data = (4, 0) := by
  decide

theorem jaro_lukas_lucas : jaro "lukas".data "lucas".data = 13 / 15 := by
  have hla : ("lukas".data.length : ℚ) = 5 := by norm_num [String.data]
  have hlb : ("lucas".data.length : ℚ) = 5 := by norm_num [String.data]
  rw [jaro, if_neg (by decide), if_neg (by rw [jaroCounts_lukas_lucas]; decide)]
  rw [jaroCounts_lukas_lucas, hla, hlb]
  norm_num

theorem jaro_winkler_lukas_lucas :
    FUZZY_THRESHOLD ≤ jaro_winkler "lukas".data "lucas".data := by
  have hp : commonPrefixLen "lukas".data "lucas".data = 2 := by decide
  rw [jaro_winkler, jaro_lukas_lucas, hp, FUZZY_THRESHOLD]
  norm_num

theorem fuzzy_match_lukas_lucas :
    fuzzy_match "lukas".data "lucas".data = true := by
  rw [fuzzy_match, if_neg (by decide)]
  have hs : splitWs "lukas".data = ["lukas".data] := by decide
  rw [hs]
  simp only [List.any_cons, List.any_nil, Bool.or_false]
  exact decide_eq_true jaro_winkler_lukas_lucas

/-- C6: a keyword shorter than 3 characters is never fuzzy-matched for any
text; a keyword of at least 3 characters fuzzy-matches whenever some
whitespace token of the (lowercased) text reaches Jaro-Winkler similarity
`FUZZY_THRESHOLD = 0.85` against the whole keyword; in particular "lukas"
matches keyword "lucas" through the fuzzy-enabled matcher. -/
theorem C6_fuzzy_rules (text kw : List Char) :
    (kw.length < 3 → fuzzy_match text kw = false) ∧
    (3 ≤ kw.length →
      (∃ w ∈ splitWs text, FUZZY_THRESHOLD ≤ jaro_winkler w kw) →
        fuzzy_match text kw = true) ∧
    check_keywords_matched "lukas".data ["lucas".data]
      = some "lucas".data := by
  refine ⟨?_, ?_, ?_⟩
  · intro h
    rw [fuzzy_match, if_pos h]
  · intro h3 hex
    obtain ⟨w, hw, hjw⟩ := hex
    rw [fuzzy_match, if_neg (by omega)]
    rw [List.any_eq_true]
    exact ⟨w, hw, decide_eq_true hjw⟩
  · rw [check_keywords_matched, if_neg (by decide)]
    have hlow : lowerChars "lukas".data = "lukas".data := by decide
    rw [hlow, firstMatchedKw]
    rw [if_pos (by rw [fuzzy_match_lukas_lucas, Bool.or_true])]

/-- Witness for C6: the 2-character keyword "oi" is not fuzzy-matched by its
1-edit neighbour "ui", while "lucas" is fuzzy-matched by the token "lukas"
inside a longer utterance. -/
theorem C6_fuzzy_rules_witness :
    fuzzy_match "ui".data "oi".data = false ∧
    fuzzy_match "olá lukas".data "lucas".data = true := by
  constructor
  · exact (C6_fuzzy_rules "ui".data "oi".data).1 (by decide)
  · exact (C6_fuzzy_rules "olá lukas".data "lucas".data).2.1 (by decide)
      ⟨"lukas".data, by decide, jaro_winkler_lukas_lucas⟩

/-! ## C8: RMS normalization -/

theorem ratTrunc_intCast (n : ℤ) : ratTrunc ((n : ℚ)) = n := by
  rw [ratTrunc, Rat.num_intCast, Rat.den_intCast]
  exact_mod_cast Int.tdiv_one n

theorem ratTrunc_ratClamp_inrange (n : ℤ) (h1 : -32768 ≤ n) (h2 : n ≤ 32767) :
    ratTrunc (ratClamp ((n : ℚ))) = n := by
  rw [ratClamp, min_eq_left (by exact_mod_cast h2),
    max_eq_right (by exact_mod_cast h1), ratTrunc_intCast]

/-- C8: `normalize` is a no-op on the empty slice (no divide-by-zero failure)
and on every slice whose computed RMS is below 100; on every other slice it
maps each sample to `trunc(clamp(s * gain))` with
`gain = min(3000 / rms, 10)` and the clamp at the signed 16-bit range — for an
arbitrary square-root implementation `sqrtFn` standing for `f64::sqrt`.
The final conjunct identifies the RMS test with the exact rational condition
`sumSq l < 100² · len`. -/
theorem C8_normalize_rules (sqrtFn : ℚ → ℚ) (l : List Int) :
    normalize sqrtFn [] = [] ∧
    (sqrtFn (meanSq l) < 100 → normalize sqrtFn l = l) ∧
    (100 ≤ sqrtFn (meanSq l) →
      normalize sqrtFn l = l.map fun s : Int =>
        ratTrunc (ratClamp ((s : ℚ) * min (3000 / sqrtFn (meanSq l)) 10))) ∧
    (0 < l.length → (meanSq l < 10000 ↔ sumSq l < 10000 * l.length)) := by
  refine ⟨?_, ?_, ?_, ?_⟩
  · simp [normalize]
  · intro h
    simp only [normalize]
    rw [if_pos h]
  · intro h
    simp only [normalize]
    rw [if_neg (not_lt.mpr h)]
  · intro hl
    have hpos : (0 : ℚ) < l.length := by exact_mod_cast hl
    rw [meanSq, div_lt_iff₀ hpos]

/-- Witness for C8: with a sqrt implementation answering 0, the slice `[300]`
is left untouched; with one answering 300 (the true RMS of `[300, -300]`),
every sample is scaled by gain 10. -/
theorem C8_normalize_rules_witness :
    normalize (fun _ => (0 : ℚ)) [300] = [300] ∧
    normalize (fun _ => (300 : ℚ)) [300, -300] = [3000, -3000] := by
  constructor
  · exact (C8_normalize_rules (fun _ => 0) [300]).2.1 (by norm_num)
  · have h := (C8_normalize_rules (fun _ => 300) [300, -300]).2.2.1 (by norm_num)
    rw [h]
    have hg : min ((3000 : ℚ) / 300) 10 = 10 := by norm_num
    simp only [List.map_cons, List.map_nil, hg]
    have e1 : ((300 : ℤ) : ℚ) * 10 = ((3000 : ℤ) : ℚ) := by norm_num
    have e2 : ((-300 : ℤ) : ℚ) * 10 = ((-3000 : ℤ) : ℚ) := by norm_num
    rw [e1, e2, ratTrunc_ratClamp_inrange 3000 (by norm_num) (by norm_num),
      ratTrunc_ratClamp_inrange (-3000) (by norm_num) (by norm_num)]
